import Mathlib

/-!
Verification of the review-orchestration service (codex-claude-bridge).

The TypeScript sources are shallowly embedded in Lean.  JavaScript strings
are modelled as `List Char` where character-level slicing matters (the diff
chunker), and as Lean `String` elsewhere.  The embedding assumes the
newline-discipline of `\n`-separated text (the JS regexes `^...` with the
`m` flag also treat `\r`, U+2028 and U+2029 as line terminators; diffs
handled by the service are `\n`-separated).  JS `Map` is modelled as an
association list with in-place update, matching JS insertion-order
semantics.  SQLite tables are modelled as association lists keyed by the
primary key; `datetime('now')` is an explicit clock argument.
-/

set_option maxHeartbeats 1000000

/-! ## Diff chunker (src/utils/chunking.ts) -/

/-- Model of `estimateTokens`: `Math.ceil(text.length / 4)`. -/
def estimateTokens (s : List Char) : Nat :=
  (s.length + 3) / 4

/-- Splits a character list into its `\n`-separated lines
(the lines never contain `\n`; a trailing `\n` yields a final empty line),
modelling the line structure that the JS multiline regexes `^diff --git `
and `^@@ ` operate on. -/
def splitLines : List Char → List (List Char)
  | [] => [[]]
  | c :: cs =>
    if c = '\n' then [] :: splitLines cs
    else
      match splitLines cs with
      | [] => [[c]]
      | g :: gs => (c :: g) :: gs

/-- Joins lines with `\n`; inverse of `splitLines`. -/
def joinLines : List (List Char) → List Char
  | [] => []
  | [l] => l
  | l :: ls => l ++ '\n' :: joinLines ls

/-- Model of the JS `.replace(/\n$/, '')`: drop one trailing newline. -/
def stripTrailingNL (s : List Char) : List Char :=
  if s.getLast? = some '\n' then s.dropLast else s

/-- A line matched by the JS regex `^diff --git ` (multiline). -/
def isFileHeader (l : List Char) : Bool :=
  "diff --git ".toList.isPrefixOf l

/-- A line matched by the JS regex `^@@ ` (multiline). -/
def isHunkHeader (l : List Char) : Bool :=
  "@@ ".toList.isPrefixOf l

/-- Groups `ls` into segments, starting a new segment at every line
satisfying `p`; `cur` is the (reversed) segment under construction.
Models the JS slicing of the diff at the regex match indices. -/
def groupsAux (p : List Char → Bool) (cur : List (List Char)) :
    List (List Char) → List (List (List Char))
  | [] => [cur.reverse]
  | l :: rest =>
    if p l then cur.reverse :: groupsAux p [l] rest
    else groupsAux p (l :: cur) rest

/-- Renders the line groups produced by `groupsAux` back into character
slices.  An interior group corresponds to the JS slice from one match
index to the next, which ends in the `\n` preceding the next match; the
`.replace(/\n$/, '')` removes exactly that separator, so the slice equals
the plain join of the group's lines.  The last group's slice runs to the
end of the string, so the replace strips a trailing newline if present. -/
def renderGroups : List (List (List Char)) → List (List Char)
  | [] => []
  | [g] => [stripTrailingNL (joinLines g)]
  | g :: gs => joinLines g :: renderGroups gs

/-- Model of `splitByFileHeaders`: slice the diff at `^diff --git `
matches, stripping one trailing newline from each slice; text before the
first match is discarded by the JS index loop.  No match returns the diff
whole. -/
def splitByFileHeaders (diff : List Char) : List (List Char) :=
  match (splitLines diff).dropWhile (fun l => !(isFileHeader l)) with
  | [] => [diff]
  | l :: rest => renderGroups (groupsAux isFileHeader [l] rest)

/-- The greedy hunk bin-packing loop inside `splitByHunks`: each emitted
chunk is the file header followed by the accumulated hunks.  (The JS
`candidate` of the loop body is inlined: it is only evaluated under
`currentHunks ≠ []`, where the accumulated piece is
`currentHunks ++ "\n" ++ h`.) -/
def packHunks (maxTokens : Int) (header : List Char) :
    List (List Char) → List Char → List (List Char)
  | [], currentHunks =>
    if currentHunks ≠ [] then [header ++ '\n' :: currentHunks] else []
  | h :: hs, currentHunks =>
    if currentHunks ≠ [] ∧
        (estimateTokens (header ++ '\n' :: (currentHunks ++ '\n' :: h)) : Int) > maxTokens then
      (header ++ '\n' :: currentHunks) :: packHunks maxTokens header hs h
    else
      packHunks maxTokens header hs
        (if currentHunks ≠ [] then currentHunks ++ '\n' :: h else h)

/-- Model of `splitByHunks`: a file diff without `^@@ ` markers (binary or
rename diff) is returned unchanged, as is a single-hunk file; otherwise the
hunks are greedily bin-packed, each chunk prefixed with the file header
(the characters before the first `^@@ ` match, with the separating newline
stripped — i.e. the join of the leading non-hunk lines). -/
def splitByHunks (fileDiff : List Char) (maxTokens : Int) : List (List Char) :=
  match (splitLines fileDiff).dropWhile (fun l => !(isHunkHeader l)) with
  | [] => [fileDiff]
  | l :: rest =>
    if (renderGroups (groupsAux isHunkHeader [l] rest)).length ≤ 1 then [fileDiff]
    else
      packHunks maxTokens
        (joinLines ((splitLines fileDiff).takeWhile (fun x => !(isHunkHeader x))))
        (renderGroups (groupsAux isHunkHeader [l] rest)) []

/-- The greedy piece bin-packing loop at the end of `chunkDiff` (with the
JS `combined` inlined as in `packHunks`). -/
def packPieces (maxTokens : Int) :
    List (List Char) → List Char → List (List Char)
  | [], current => if current ≠ [] then [current] else []
  | p :: ps, current =>
    if current ≠ [] ∧ (estimateTokens (current ++ '\n' :: p) : Int) > maxTokens then
      current :: packPieces maxTokens ps p
    else
      packPieces maxTokens ps (if current ≠ [] then current ++ '\n' :: p else p)

/-- Model of the JS whitespace characters removed by `String.prototype.trim`
(restricted to the ASCII whitespace that occurs in diffs). -/
def isJsSpace (c : Char) : Bool :=
  c.isWhitespace

/-- Model of `diff.trim()`. -/
def trimChars (s : List Char) : List Char :=
  ((s.dropWhile isJsSpace).reverse.dropWhile isJsSpace).reverse

/-- The piece list built inside `chunkDiff`: files within budget are kept
intact, oversized files are expanded into hunk-level pieces. -/
def chunkPieces (diff : List Char) (maxTokens : Int) : List (List Char) :=
  (splitByFileHeaders diff).flatMap (fun f =>
    if (estimateTokens f : Int) > maxTokens then splitByHunks f maxTokens
    else [f])

/-- Model of `chunkDiff` (src/utils/chunking.ts lines 65-101): empty or
whitespace-only diffs produce no chunks; a non-positive budget or a diff
within budget is returned whole; otherwise the diff is split at file
headers, oversized files are expanded at hunk boundaries, and the pieces
are greedily bin-packed. -/
def chunkDiff (diff : List Char) (maxTokens : Int) : List (List Char) :=
  if trimChars diff = [] then []
  else if maxTokens ≤ 0 then [diff]
  else if (estimateTokens diff : Int) ≤ maxTokens then [diff]
  else if (chunkPieces diff maxTokens).length ≤ 1 then [diff]
  else packPieces maxTokens (chunkPieces diff maxTokens) []

/-! ### Line-structure lemmas -/

theorem splitLines_ne_nil (s : List Char) : splitLines s ≠ [] := by
  cases s with
  | nil => simp [splitLines]
  | cons c cs =>
    simp only [splitLines]
    split
    · simp
    · cases h : splitLines cs <;> simp

theorem joinLines_cons (l : List Char) (ls : List (List Char)) (h : ls ≠ []) :
    joinLines (l :: ls) = l ++ '\n' :: joinLines ls := by
  cases ls with
  | nil => exact absurd rfl h
  | cons a as => rfl

theorem joinLines_splitLines (s : List Char) : joinLines (splitLines s) = s := by
  induction s with
  | nil => rfl
  | cons c cs ih =>
    by_cases hc : c = '\n'
    · subst hc
      have hs : splitLines ('\n' :: cs) = [] :: splitLines cs := by simp [splitLines]
      rw [hs, joinLines_cons _ _ (splitLines_ne_nil cs), ih]
      rfl
    · cases h : splitLines cs with
      | nil => exact absurd h (splitLines_ne_nil cs)
      | cons g gs =>
        have hs : splitLines (c :: cs) = (c :: g) :: gs := by simp [splitLines, hc, h]
        rw [h] at ih
        rw [hs]
        cases gs with
        | nil =>
          simp only [joinLines] at ih ⊢
          rw [ih]
        | cons g' gs' =>
          rw [joinLines_cons _ _ (by simp)] at ih
          rw [joinLines_cons _ _ (by simp)]
          simp only [List.cons_append]
          rw [ih]

theorem splitLines_no_newline (s : List Char) :
    ∀ l ∈ splitLines s, '\n' ∉ l := by
  induction s with
  | nil => intro l hl; simp [splitLines] at hl; simp [hl]
  | cons c cs ih =>
    intro l hl
    by_cases hc : c = '\n'
    · subst hc
      have hs : splitLines ('\n' :: cs) = [] :: splitLines cs := by simp [splitLines]
      rw [hs, List.mem_cons] at hl
      rcases hl with rfl | hl
      · simp
      · exact ih l hl
    · cases h : splitLines cs with
      | nil => exact absurd h (splitLines_ne_nil cs)
      | cons g gs =>
        have hs : splitLines (c :: cs) = (c :: g) :: gs := by simp [splitLines, hc, h]
        rw [hs, List.mem_cons] at hl
        rcases hl with rfl | hl
        · intro hmem
          rw [List.mem_cons] at hmem
          rcases hmem with hmem | hmem
          · exact hc hmem.symm
          · exact ih g (by rw [h]; simp) hmem
        · exact ih l (by rw [h]; simp [hl])

theorem joinLines_append (as bs : List (List Char)) (ha : as ≠ []) (hb : bs ≠ []) :
    joinLines (as ++ bs) = joinLines as ++ '\n' :: joinLines bs := by
  induction as with
  | nil => exact absurd rfl ha
  | cons a as ih =>
    cases as with
    | nil =>
      rw [List.singleton_append, joinLines_cons _ _ hb]
      rfl
    | cons a' as' =>
      rw [List.cons_append]
      rw [joinLines_cons a (a' :: as' ++ bs) (by simp)]
      rw [ih (by simp)]
      rw [joinLines_cons a (a' :: as') (by simp)]
      simp

theorem joinLines_cons_ne_nil (l : List Char) (ls : List (List Char)) (h : l ≠ []) :
    joinLines (l :: ls) ≠ [] := by
  cases ls with
  | nil => exact h
  | cons a as => rw [joinLines_cons _ _ (by simp)]; simp [h]

theorem joinLines_length_ge (l : List Char) (ls : List (List Char)) :
    l.length ≤ (joinLines (l :: ls)).length := by
  cases ls with
  | nil => simp [joinLines]
  | cons a as => rw [joinLines_cons _ _ (by simp)]; simp

/-! ### `stripTrailingNL` lemmas -/

theorem stripTrailingNL_of_ne (s : List Char) (h : s.getLast? ≠ some '\n') :
    stripTrailingNL s = s := by
  simp [stripTrailingNL, h]

theorem stripTrailingNL_append (as bs : List Char) (hb : bs ≠ []) :
    stripTrailingNL (as ++ bs) = as ++ stripTrailingNL bs := by
  unfold stripTrailingNL
  rw [List.getLast?_append_of_ne_nil _ hb]
  split
  · rw [List.dropLast_append_of_ne_nil _ hb]
  · rfl

theorem stripTrailingNL_ne_nil (s : List Char) (h : 2 ≤ s.length) :
    stripTrailingNL s ≠ [] := by
  unfold stripTrailingNL
  split
  · have : s.dropLast.length = s.length - 1 := List.length_dropLast s
    intro hc
    rw [hc] at this
    simp at this
    omega
  · intro hc
    subst hc
    simp at h

/-! ### Grouping lemmas -/

theorem groupsAux_flatten (p : List Char → Bool) (ls : List (List Char)) :
    ∀ cur, (groupsAux p cur ls).flatten = cur.reverse ++ ls := by
  induction ls with
  | nil => intro cur; simp [groupsAux]
  | cons l rest ih =>
    intro cur
    simp only [groupsAux]
    split
    · simp [ih]
    · simp [ih]

theorem groupsAux_length (p : List Char → Bool) (ls : List (List Char)) :
    ∀ cur, (groupsAux p cur ls).length = 1 + (ls.countP p) := by
  induction ls with
  | nil => intro cur; simp [groupsAux]
  | cons l rest ih =>
    intro cur
    simp only [groupsAux]
    split
    · rename_i hp
      simp [ih, List.countP_cons, hp]
      omega
    · rename_i hp
      simp only [Bool.not_eq_true] at hp
      simp [ih, List.countP_cons, hp]

theorem groupsAux_headed (p : List Char → Bool) (ls : List (List Char)) :
    ∀ cur, (∃ h t, cur = t ++ [h] ∧ p h) →
      ∀ g ∈ groupsAux p cur ls, ∃ h t, g = h :: t ∧ p h := by
  induction ls with
  | nil =>
    intro cur hcur g hg
    obtain ⟨h, t, rfl, hp⟩ := hcur
    simp [groupsAux] at hg
    exact ⟨h, t.reverse, by simp [hg], hp⟩
  | cons l rest ih =>
    intro cur hcur g hg
    simp only [groupsAux] at hg
    split at hg
    · rename_i hp
      rw [List.mem_cons] at hg
      rcases hg with hg | hg
      · obtain ⟨h, t, rfl, hph⟩ := hcur
        exact ⟨h, t.reverse, by simp [hg], hph⟩
      · exact ih [l] ⟨l, [], rfl, hp⟩ g hg
    · obtain ⟨h, t, rfl, hph⟩ := hcur
      exact ih _ ⟨h, l :: t, by simp, hph⟩ g hg

/-! ### `renderGroups` lemmas -/

theorem renderGroups_length (gs : List (List (List Char))) :
    (renderGroups gs).length = gs.length := by
  induction gs with
  | nil => rfl
  | cons g gs ih =>
    cases gs with
    | nil => rfl
    | cons g' gs' => simp only [renderGroups, List.length_cons] at *; omega

theorem renderGroups_ne_nil (gs : List (List (List Char))) (h : gs ≠ []) :
    renderGroups gs ≠ [] := by
  cases gs with
  | nil => exact absurd rfl h
  | cons g gs => cases gs <;> simp [renderGroups]

theorem joinLines_flatten_ne_nil (gs : List (List (List Char)))
    (h : ∀ g ∈ gs, joinLines g ≠ []) (hne : gs ≠ []) :
    joinLines gs.flatten ≠ [] := by
  induction gs with
  | nil => exact absurd rfl hne
  | cons g gs ih =>
    have hg : joinLines g ≠ [] := h g (by simp)
    have hgne : g ≠ [] := by rintro rfl; exact hg rfl
    cases gs with
    | nil => simpa using hg
    | cons g' gs' =>
      have hg' : joinLines g' ≠ [] := h g' (by simp)
      have hg'ne : g' ≠ [] := by rintro rfl; exact hg' rfl
      have hflat : (g' :: gs').flatten ≠ [] := by
        simp only [List.flatten_cons]
        intro hc
        rw [List.append_eq_nil] at hc
        exact hg'ne hc.1
      have key : joinLines ((g :: g' :: gs').flatten) =
          joinLines g ++ '\n' :: joinLines ((g' :: gs').flatten) := by
        rw [List.flatten_cons]
        exact joinLines_append _ _ hgne hflat
      rw [key]
      simp [hg]

theorem joinLines_renderGroups (gs : List (List (List Char)))
    (h : ∀ g ∈ gs, joinLines g ≠ []) :
    joinLines (renderGroups gs) = stripTrailingNL (joinLines gs.flatten) := by
  induction gs with
  | nil => rfl
  | cons g gs ih =>
    have hg : joinLines g ≠ [] := h g (by simp)
    have hgne : g ≠ [] := by rintro rfl; exact hg rfl
    cases gs with
    | nil => simp [renderGroups, joinLines]
    | cons g' gs' =>
      have hrest : ∀ x ∈ g' :: gs', joinLines x ≠ [] := fun x hx => h x (by simp [hx])
      have hflatne : joinLines (g' :: gs').flatten ≠ [] :=
        joinLines_flatten_ne_nil _ hrest (by simp)
      have hflat : (g' :: gs').flatten ≠ [] := by
        intro hc; rw [hc] at hflatne; exact hflatne rfl
      have key : joinLines ((g :: g' :: gs').flatten) =
          joinLines g ++ '\n' :: joinLines ((g' :: gs').flatten) := by
        rw [List.flatten_cons]
        exact joinLines_append _ _ hgne hflat
      have key2 : stripTrailingNL ('\n' :: joinLines ((g' :: gs').flatten)) =
          '\n' :: stripTrailingNL (joinLines ((g' :: gs').flatten)) := by
        have hx := stripTrailingNL_append ['\n'] (joinLines ((g' :: gs').flatten)) hflatne
        simpa using hx
      rw [show renderGroups (g :: g' :: gs') = joinLines g :: renderGroups (g' :: gs') from rfl,
        joinLines_cons _ _ (renderGroups_ne_nil _ (by simp)), ih hrest, key,
        stripTrailingNL_append _ _ (by simp), key2]

example : chunkDiff "".toList 1000 = [] := by decide

example : chunkDiff "   \n\t\n  ".toList 1000 = [] := by decide

example :
    chunkDiff "diff --git a\ndiff --git b".toList 1 =
      ["diff --git a".toList, "diff --git b".toList] := by decide

example :
    joinLines (chunkDiff "diff --git a\ndiff --git b\n".toList 1) ≠
      "diff --git a\ndiff --git b\n".toList := by decide

/-! ### Chunker structure lemmas -/

theorem dropWhile_head_false {α : Type} (p : α → Bool) (xs : List α) (l : α)
    (rest : List α) (h : xs.dropWhile p = l :: rest) : p l = false := by
  induction xs with
  | nil => simp at h
  | cons x xs ih =>
    rw [List.dropWhile_cons] at h
    split at h
    · exact ih h
    · rename_i hx
      injection h with h1 h2
      subst h1
      simpa using hx

theorem isFileHeader_ne_nil (l : List Char) (h : isFileHeader l = true) : l ≠ [] := by
  rintro rfl
  exact absurd h (by decide)

theorem isFileHeader_length (l : List Char) (h : isFileHeader l = true) :
    11 ≤ l.length := by
  unfold isFileHeader at h
  have hp : "diff --git ".toList <+: l := by
    rw [← List.isPrefixOf_iff_prefix]
    exact h
  have := hp.length_le
  simpa using this

/-- The slices that `splitByFileHeaders` produces when matches exist: text
from the first match onward, joined per group with the last slice
newline-stripped; this equals the whole diff newline-stripped when the
first line is a match. -/
theorem joinLines_splitByFileHeaders (d : List Char) (hlast : d.getLast? ≠ some '\n')
    (hhdr : ((splitLines d).takeWhile (fun l => !(isFileHeader l)) = [] ∨
      ((splitLines d).all fun l => !(isFileHeader l)) = true)) :
    joinLines (splitByFileHeaders d) = d := by
  unfold splitByFileHeaders
  cases hdw : (splitLines d).dropWhile (fun l => !(isFileHeader l)) with
  | nil => rfl
  | cons l rest =>
    have hall : ¬ ((splitLines d).all fun l => !(isFileHeader l)) = true := by
      intro hall
      have hnil : (splitLines d).dropWhile (fun l => !(isFileHeader l)) = [] :=
        List.dropWhile_eq_nil_iff.mpr (fun x hx => List.all_eq_true.mp hall x hx)
      rw [hdw] at hnil
      exact List.cons_ne_nil _ _ hnil
    have htw : (splitLines d).takeWhile (fun l => !(isFileHeader l)) = [] := by
      rcases hhdr with h | h
      · exact h
      · exact absurd h hall
    have hlines : splitLines d = l :: rest := by
      have hsplit := List.takeWhile_append_dropWhile
        (p := fun l => !(isFileHeader l)) (l := splitLines d)
      rw [htw, hdw] at hsplit
      simpa using hsplit.symm
    have hl : isFileHeader l = true := by
      have := dropWhile_head_false _ _ _ _ hdw
      simpa using this
    have hheaded := groupsAux_headed isFileHeader rest [l] ⟨l, [], rfl, hl⟩
    have hjoin : ∀ g ∈ groupsAux isFileHeader [l] rest, joinLines g ≠ [] := by
      intro g hg
      obtain ⟨h, t, rfl, hph⟩ := hheaded g hg
      exact joinLines_cons_ne_nil h t (isFileHeader_ne_nil h hph)
    rw [joinLines_renderGroups _ hjoin, groupsAux_flatten]
    have hfl : ([l].reverse : List (List Char)) ++ rest = splitLines d := by
      simp [hlines]
    rw [hfl, joinLines_splitLines, stripTrailingNL_of_ne d hlast]

theorem splitByHunks_eq_of_dropWhile_nil (f : List Char) (n : Int)
    (h : (splitLines f).dropWhile (fun l => !(isHunkHeader l)) = []) :
    splitByHunks f n = [f] := by
  unfold splitByHunks
  rw [h]

theorem splitByHunks_eq_of_dropWhile_cons (f : List Char) (n : Int) (l : List Char)
    (rest : List (List Char))
    (h : (splitLines f).dropWhile (fun l => !(isHunkHeader l)) = l :: rest) :
    splitByHunks f n =
      if (renderGroups (groupsAux isHunkHeader [l] rest)).length ≤ 1 then [f]
      else
        packHunks n (joinLines ((splitLines f).takeWhile (fun x => !(isHunkHeader x))))
          (renderGroups (groupsAux isHunkHeader [l] rest)) [] := by
  unfold splitByHunks
  rw [h]

theorem splitByHunks_single (f : List Char) (n : Int)
    (h : (splitLines f).countP isHunkHeader ≤ 1) :
    splitByHunks f n = [f] := by
  cases hdw : (splitLines f).dropWhile (fun l => !(isHunkHeader l)) with
  | nil => exact splitByHunks_eq_of_dropWhile_nil f n hdw
  | cons l rest =>
    have hl : isHunkHeader l = true := by
      have := dropWhile_head_false _ _ _ _ hdw
      simpa using this
    have hkeep : (splitLines f).countP isHunkHeader =
        ((splitLines f).takeWhile (fun l => !(isHunkHeader l))).countP isHunkHeader +
          (l :: rest).countP isHunkHeader := by
      conv_lhs => rw [← List.takeWhile_append_dropWhile
        (p := fun l => !(isHunkHeader l)) (l := splitLines f)]
      rw [hdw, List.countP_append]
    have hrest0 : rest.countP isHunkHeader = 0 := by
      rw [List.countP_cons] at hkeep
      simp only [hl, if_pos] at hkeep
      omega
    have hlen : (renderGroups (groupsAux isHunkHeader [l] rest)).length ≤ 1 := by
      rw [renderGroups_length, groupsAux_length, hrest0]
    rw [splitByHunks_eq_of_dropWhile_cons f n l rest hdw, if_pos hlen]

theorem flatMap_single_of_no_split (n : Int) :
    ∀ fs : List (List Char),
      (∀ f ∈ fs, (estimateTokens f : Int) > n →
        (splitLines f).countP isHunkHeader ≤ 1) →
      (fs.flatMap fun f =>
        if (estimateTokens f : Int) > n then splitByHunks f n else [f]) = fs := by
  intro fs
  induction fs with
  | nil => intro _; rfl
  | cons f fs ih =>
    intro h
    rw [List.flatMap_cons]
    have hne := h f (by simp)
    have ih' := ih (fun x hx hx2 => h x (by simp [hx]) hx2)
    by_cases hest : (estimateTokens f : Int) > n
    · rw [if_pos hest, splitByHunks_single f n (hne hest), ih']
      rfl
    · rw [if_neg hest, ih']
      rfl

theorem chunkPieces_of_no_split (d : List Char) (n : Int)
    (h : ∀ f ∈ splitByFileHeaders d, (estimateTokens f : Int) > n →
      (splitLines f).countP isHunkHeader ≤ 1) :
    chunkPieces d n = splitByFileHeaders d := by
  unfold chunkPieces
  exact flatMap_single_of_no_split n _ h

theorem renderGroups_mem (gs : List (List (List Char))) :
    ∀ f ∈ renderGroups gs, ∃ g ∈ gs,
      f = joinLines g ∨ f = stripTrailingNL (joinLines g) := by
  induction gs with
  | nil => simp [renderGroups]
  | cons g gs ih =>
    cases gs with
    | nil =>
      intro f hf
      simp only [renderGroups, List.mem_singleton] at hf
      exact ⟨g, by simp, Or.inr hf⟩
    | cons g' gs' =>
      intro f hf
      rw [show renderGroups (g :: g' :: gs') =
        joinLines g :: renderGroups (g' :: gs') from rfl, List.mem_cons] at hf
      rcases hf with rfl | hf
      · exact ⟨g, by simp, Or.inl rfl⟩
      · obtain ⟨g₀, hg₀, hor⟩ := ih f hf
        exact ⟨g₀, List.mem_cons_of_mem g hg₀, hor⟩

theorem splitByFileHeaders_mem_ne_nil (d : List Char) (hd : d ≠ []) :
    ∀ f ∈ splitByFileHeaders d, f ≠ [] := by
  unfold splitByFileHeaders
  cases hdw : (splitLines d).dropWhile (fun l => !(isFileHeader l)) with
  | nil =>
    intro f hf
    rw [List.mem_singleton] at hf
    subst hf
    exact hd
  | cons l rest =>
    intro f hf
    have hl : isFileHeader l = true := by
      have := dropWhile_head_false _ _ _ _ hdw
      simpa using this
    have hheaded := groupsAux_headed isFileHeader rest [l] ⟨l, [], rfl, hl⟩
    obtain ⟨g, hg, hor⟩ := renderGroups_mem _ f hf
    obtain ⟨h, t, rfl, hph⟩ := hheaded g hg
    have hjlen : 11 ≤ (joinLines (h :: t)).length :=
      le_trans (isFileHeader_length h hph) (joinLines_length_ge h t)
    rcases hor with rfl | rfl
    · intro hc
      rw [hc] at hjlen
      simp at hjlen
    · exact stripTrailingNL_ne_nil _ (by omega)

theorem packHunks_mem_ne_nil (n : Int) (header : List Char) (hs : List (List Char)) :
    ∀ cur, ∀ c ∈ packHunks n header hs cur, c ≠ [] := by
  induction hs with
  | nil =>
    intro cur c hc
    simp only [packHunks] at hc
    split at hc
    · rw [List.mem_singleton] at hc
      subst hc
      simp
    · simp at hc
  | cons h hs ih =>
    intro cur c hc
    simp only [packHunks] at hc
    split at hc
    · rw [List.mem_cons] at hc
      rcases hc with rfl | hc
      · simp
      · exact ih h c hc
    · exact ih _ c hc

theorem splitByHunks_mem_ne_nil (f : List Char) (n : Int) (hf : f ≠ []) :
    ∀ c ∈ splitByHunks f n, c ≠ [] := by
  cases hdw : (splitLines f).dropWhile (fun l => !(isHunkHeader l)) with
  | nil =>
    rw [splitByHunks_eq_of_dropWhile_nil f n hdw]
    intro c hc
    rw [List.mem_singleton] at hc
    subst hc
    exact hf
  | cons l rest =>
    rw [splitByHunks_eq_of_dropWhile_cons f n l rest hdw]
    intro c hc
    split at hc
    · rw [List.mem_singleton] at hc
      subst hc
      exact hf
    · exact packHunks_mem_ne_nil _ _ _ _ c hc

theorem chunkPieces_mem_ne_nil (d : List Char) (n : Int) (hd : d ≠ []) :
    ∀ p ∈ chunkPieces d n, p ≠ [] := by
  intro p hp
  simp only [chunkPieces, List.mem_flatMap] at hp
  obtain ⟨f, hf, hpf⟩ := hp
  have hfne : f ≠ [] := splitByFileHeaders_mem_ne_nil d hd f hf
  by_cases hest : (estimateTokens f : Int) > n
  · rw [if_pos hest] at hpf
    exact splitByHunks_mem_ne_nil f n hfne p hpf
  · rw [if_neg hest] at hpf
    rw [List.mem_singleton] at hpf
    subst hpf
    exact hfne

/-! ### Bin-packing preserves the joined text -/

theorem packPieces_ne_nil (n : Int) (ps : List (List Char)) :
    ∀ cur, cur ≠ [] → packPieces n ps cur ≠ [] := by
  induction ps with
  | nil =>
    intro cur h
    simp [packPieces, h]
  | cons p ps ih =>
    intro cur h
    simp only [packPieces]
    split
    · simp
    · exact ih _ (by simp [h])

theorem packPieces_nil_start (n : Int) (p : List Char) (ps : List (List Char)) :
    packPieces n (p :: ps) [] = packPieces n ps p := by
  simp [packPieces]

theorem joinLines_glue (a b : List Char) (L : List (List Char)) :
    joinLines ((a ++ '\n' :: b) :: L) = joinLines (a :: b :: L) := by
  cases L with
  | nil =>
    show a ++ '\n' :: b = joinLines (a :: b :: [])
    rw [joinLines_cons a [b] (by simp)]
    rfl
  | cons c L' =>
    rw [joinLines_cons (a ++ '\n' :: b) (c :: L') (by simp),
      joinLines_cons a (b :: c :: L') (by simp),
      joinLines_cons b (c :: L') (by simp)]
    simp

theorem joinLines_packPieces (n : Int) (ps : List (List Char))
    (hps : ∀ p ∈ ps, p ≠ []) :
    ∀ cur, joinLines (packPieces n ps cur) =
      if cur = [] then joinLines ps else joinLines (cur :: ps) := by
  induction ps with
  | nil =>
    intro cur
    by_cases h : cur = []
    · simp [packPieces, h, joinLines]
    · simp only [packPieces, ne_eq, h, not_false_eq_true, if_pos, if_neg h]
      rfl
  | cons p ps ih =>
    intro cur
    have hp : p ≠ [] := hps p (by simp)
    have hps' : ∀ x ∈ ps, x ≠ [] := fun x hx => hps x (by simp [hx])
    simp only [packPieces]
    split
    · rename_i hcond
      have hcur : cur ≠ [] := hcond.1
      rw [joinLines_cons cur (packPieces n ps p) (packPieces_ne_nil n ps p hp),
        ih hps' p, if_neg hp, if_neg hcur, joinLines_cons cur (p :: ps) (by simp)]
    · by_cases hcur : cur = []
      · subst hcur
        rw [if_neg (by simp), ih hps' p, if_neg hp, if_pos rfl]
      · rw [if_pos hcur, ih hps' (cur ++ '\n' :: p), if_neg (by simp),
          joinLines_glue, if_neg hcur]

/-! ### C1 and C6 -/

/-- The `headers at the front` precondition for lossless chunking: either
no line of the diff matches `^diff --git `, or the very first line does
(otherwise `splitByFileHeaders` discards everything before the first
match). -/
def headerFront (d : List Char) : Prop :=
  (splitLines d).takeWhile (fun l => !(isFileHeader l)) = [] ∨
  ((splitLines d).all fun l => !(isFileHeader l)) = true

instance (d : List Char) : Decidable (headerFront d) := by
  unfold headerFront
  infer_instance

/-- Claim C1 (amended): joining the chunks of `chunkDiff d n` with a
single newline reproduces `d` for positive `n`, provided `d` has
non-whitespace content, does not end in a newline, has its first
`diff --git ` header (if any) on the first line, and no over-budget file
piece contains two or more `@@ ` hunk-header lines.  (Outside these
conditions content is lost: a trailing newline is stripped, text before
the first header is dropped, and hunk splitting duplicates the file
header into every chunk.) -/
theorem chunkDiff_join_roundtrip (d : List Char) (n : Int)
    (hn : 0 < n) (hws : trimChars d ≠ [])
    (hlast : d.getLast? ≠ some '\n') (hhdr : headerFront d)
    (hhunks : ∀ f ∈ splitByFileHeaders d, (estimateTokens f : Int) > n →
      (splitLines f).countP isHunkHeader ≤ 1) :
    joinLines (chunkDiff d n) = d := by
  have hd : d ≠ [] := by
    rintro rfl
    exact hws rfl
  have hpieces : chunkPieces d n = splitByFileHeaders d :=
    chunkPieces_of_no_split d n hhunks
  unfold chunkDiff
  rw [if_neg hws, if_neg (by omega : ¬ n ≤ 0)]
  by_cases hest : (estimateTokens d : Int) ≤ n
  · rw [if_pos hest]
    rfl
  · rw [if_neg hest]
    by_cases hlen : (chunkPieces d n).length ≤ 1
    · rw [if_pos hlen]
      rfl
    · rw [if_neg hlen]
      have hmemne : ∀ p ∈ chunkPieces d n, p ≠ [] :=
        chunkPieces_mem_ne_nil d n hd
      cases hcp : chunkPieces d n with
      | nil =>
        rw [hcp] at hlen
        simp at hlen
      | cons p ps =>
        have hp : p ≠ [] := hmemne p (by rw [hcp]; simp)
        have hps : ∀ x ∈ ps, x ≠ [] := fun x hx => hmemne x (by rw [hcp]; simp [hx])
        rw [packPieces_nil_start, joinLines_packPieces n ps hps p, if_neg hp,
          ← hcp, hpieces]
        exact joinLines_splitByFileHeaders d hlast hhdr

/-- Claim C1 (counterexample): for the diff `"diff --git a\ndiff --git b\n"`
(which ends in a newline) and the positive budget `1`, joining the chunks
with a newline does not reproduce the diff — the trailing newline is lost
by the `.replace(/\n$/, '')` applied to the last file slice. -/
theorem chunkDiff_join_roundtrip_cex :
    0 < (1 : Int) ∧
      joinLines (chunkDiff "diff --git a\ndiff --git b\n".toList 1) ≠
        "diff --git a\ndiff --git b\n".toList := by
  decide

/-- Witness for `chunkDiff_join_roundtrip` at a concrete two-file diff and
budget 4. -/
theorem chunkDiff_join_roundtrip_witness :
    joinLines (chunkDiff "diff --git a\nx\ndiff --git b\ny".toList 4) =
      "diff --git a\nx\ndiff --git b\ny".toList :=
  chunkDiff_join_roundtrip _ 4 (by decide) (by decide) (by decide) (by decide)
    (by decide)

/-- Claim C6 (amended): `chunkDiff` returns `[]` on the empty diff and on
every whitespace-only diff, and returns `[d]` for `n ≤ 0` whenever `d`
has non-whitespace content (the whitespace test precedes the `maxTokens`
test in the source, so a whitespace-only `d` yields `[]` even for
`n ≤ 0`). -/
theorem chunkDiff_boundary (d : List Char) (n : Int) :
    chunkDiff [] n = [] ∧
    ((∀ c ∈ d, isJsSpace c = true) → chunkDiff d n = []) ∧
    (trimChars d ≠ [] → n ≤ 0 → chunkDiff d n = [d]) := by
  refine ⟨?_, ?_, ?_⟩
  · unfold chunkDiff
    simp [trimChars]
  · intro h
    have htr : trimChars d = [] := by
      unfold trimChars
      have h1 : d.dropWhile isJsSpace = [] :=
        List.dropWhile_eq_nil_iff.mpr (fun x hx => h x hx)
      rw [h1]
      rfl
    unfold chunkDiff
    simp [htr]
  · intro h1 h2
    unfold chunkDiff
    rw [if_neg h1, if_pos h2]

/-- Claim C6 (counterexample): for the whitespace diff `" "` and
`n = 0 ≤ 0`, `chunkDiff` returns `[]`, not `[d]` as the claim states for
every diff. -/
theorem chunkDiff_boundary_cex :
    chunkDiff [' '] 0 = [] ∧ chunkDiff [' '] 0 ≠ [[' ']] := by
  decide

/-- Witness for `chunkDiff_boundary` at `d = ['x']`, `n = -1`. -/
theorem chunkDiff_boundary_witness : chunkDiff ['x'] (-1) = [['x']] :=
  (chunkDiff_boundary ['x'] (-1)).2.2 (by decide) (by decide)

/-! ## Code findings and multi-chunk merging (src/codex/client.ts) -/

/-- The code-review severity enum, `['critical','major','minor','nitpick']`
(src/codex/types.ts). -/
inductive CodeFindingSeverity : Type where
  | critical
  | major
  | minor
  | nitpick
deriving DecidableEq, Repr

/-- Model of `severityRank`: options reverse-indexed, so
critical 3 > major 2 > minor 1 > nitpick 0. -/
def severityRank : CodeFindingSeverity → Nat
  | .critical => 3
  | .major => 2
  | .minor => 1
  | .nitpick => 0

/-- A code-review finding (`CodeFindingSchema`): `line` is a positive
integer or null, `file` and `suggestion` are strings or null. -/
structure CodeFinding : Type where
  severity : CodeFindingSeverity
  category : String
  description : String
  file : Option String
  line : Option Nat
  suggestion : Option String
deriving DecidableEq, Repr

/-- The JS Map key `${f.file}:${f.line}:${f.category}` built by
`deduplicateFindings`, or `none` when `f.file === null || f.line === null`
(the keyless case).  Note the key is a string: distinct
`(file, line, category)` triples can collide when colons align. -/
def findingKey (f : CodeFinding) : Option String :=
  match f.file, f.line with
  | some file, some line => some (file ++ ":" ++ toString line ++ ":" ++ f.category)
  | _, _ => none

/-- `Map.get`: first (and only) entry with the key. -/
def lookupA {β : Type} (k : String) : List (String × β) → Option β
  | [] => none
  | (k', v) :: rest => if k' = k then some v else lookupA k rest

/-- `Map.set` with JS semantics: an existing key is updated in place,
keeping its original insertion position; a fresh key is appended. -/
def setAssoc {β : Type} (k : String) (v : β) : List (String × β) → List (String × β)
  | [] => [(k, v)]
  | (k', v') :: rest =>
    if k' = k then (k, v) :: rest else (k', v') :: setAssoc k v rest

/-- The loop body of `deduplicateFindings`: keyless findings accumulate in
order; a keyed finding is inserted unless an entry with the same key and
severity rank `≥` its own already exists. -/
def dedupGo : List CodeFinding → List (String × CodeFinding) → List CodeFinding →
    List CodeFinding
  | [], m, keyless => m.map Prod.snd ++ keyless
  | f :: fs, m, keyless =>
    match findingKey f with
    | none => dedupGo fs m (keyless ++ [f])
    | some k =>
      match lookupA k m with
      | none => dedupGo fs (setAssoc k f m) keyless
      | some existing =>
        if severityRank f.severity > severityRank existing.severity then
          dedupGo fs (setAssoc k f m) keyless
        else dedupGo fs m keyless

/-- Model of `deduplicateFindings`: map values (in key insertion order)
followed by the keyless findings in their original order. -/
def deduplicateFindings (findings : List CodeFinding) : List CodeFinding :=
  dedupGo findings [] []

/-- The map part of the dedup fold in isolation (specification aid). -/
def dedupMap : List CodeFinding → List (String × CodeFinding) →
    List (String × CodeFinding)
  | [], m => m
  | f :: fs, m =>
    match findingKey f with
    | none => dedupMap fs m
    | some k =>
      match lookupA k m with
      | none => dedupMap fs (setAssoc k f m)
      | some existing =>
        if severityRank f.severity > severityRank existing.severity then
          dedupMap fs (setAssoc k f m)
        else dedupMap fs m

/-- Reference reduction of a duplicate class: starting from the first
finding, a later one replaces the accumulator only when its severity rank
is strictly higher. -/
def survivorFold : Option CodeFinding → List CodeFinding → Option CodeFinding
  | acc, [] => acc
  | none, f :: fs => survivorFold (some f) fs
  | some a, f :: fs =>
    survivorFold
      (some (if severityRank f.severity > severityRank a.severity then f else a)) fs

/-- Reference survivor of the duplicate class of string key `k`. -/
def survivorFor (fs : List CodeFinding) (k : String) : Option CodeFinding :=
  survivorFold none (fs.filter (fun f => decide (findingKey f = some k)))

/-- The string keys of the keyed findings, in input order. -/
def keysOf (fs : List CodeFinding) : List String :=
  fs.filterMap findingKey

/-- First occurrences of each key, in order, skipping keys in `seen`. -/
def firstOccAux (seen : List String) : List String → List String
  | [] => []
  | k :: ks =>
    if k ∈ seen then firstOccAux seen ks else k :: firstOccAux (k :: seen) ks

/-! ### Association-list lemmas -/

theorem lookupA_setAssoc_self {β : Type} (k : String) (v : β)
    (m : List (String × β)) : lookupA k (setAssoc k v m) = some v := by
  induction m with
  | nil => simp [setAssoc, lookupA]
  | cons e rest ih =>
    obtain ⟨k', v'⟩ := e
    simp only [setAssoc]
    split
    · simp [lookupA]
    · rename_i hne
      simp [lookupA, hne, ih]

theorem lookupA_setAssoc_other {β : Type} (k k' : String) (v : β)
    (m : List (String × β)) (h : k' ≠ k) :
    lookupA k (setAssoc k' v m) = lookupA k m := by
  induction m with
  | nil => simp [setAssoc, lookupA, h]
  | cons e rest ih =>
    obtain ⟨k₀, v₀⟩ := e
    simp only [setAssoc]
    split
    · rename_i he
      subst he
      simp [lookupA, h]
    · simp only [lookupA]
      split
      · rfl
      · exact ih

theorem lookupA_none_iff {β : Type} (k : String) (m : List (String × β)) :
    lookupA k m = none ↔ k ∉ m.map Prod.fst := by
  induction m with
  | nil => simp [lookupA]
  | cons e rest ih =>
    obtain ⟨k₀, v₀⟩ := e
    simp only [lookupA, List.map_cons, List.mem_cons]
    split
    · rename_i he
      subst he
      simp
    · rename_i he
      rw [ih]
      constructor
      · intro hk h1
        rcases h1 with h1 | h1
        · exact he h1.symm
        · exact hk h1
      · intro hk
        intro hmem
        exact hk (Or.inr hmem)

theorem setAssoc_of_lookupA_none {β : Type} (k : String) (v : β)
    (m : List (String × β)) (h : lookupA k m = none) :
    setAssoc k v m = m ++ [(k, v)] := by
  induction m with
  | nil => rfl
  | cons e rest ih =>
    obtain ⟨k₀, v₀⟩ := e
    simp only [lookupA] at h
    split at h
    · exact absurd h (by simp)
    · rename_i he
      simp only [setAssoc, if_neg he, List.cons_append]
      rw [ih h]

theorem setAssoc_map_fst_of_mem {β : Type} (k : String) (v : β)
    (m : List (String × β)) (h : k ∈ m.map Prod.fst) :
    (setAssoc k v m).map Prod.fst = m.map Prod.fst := by
  induction m with
  | nil => simp at h
  | cons e rest ih =>
    obtain ⟨k₀, v₀⟩ := e
    simp only [List.map_cons, List.mem_cons] at h
    simp only [setAssoc]
    split
    · rename_i he
      subst he
      simp
    · rename_i he
      rcases h with h | h
      · exact absurd h.symm he
      · simp [ih h]

/-! ### `firstOccAux` lemmas -/

theorem firstOccAux_congr (ls : List String) :
    ∀ s₁ s₂, (∀ x, x ∈ s₁ ↔ x ∈ s₂) → firstOccAux s₁ ls = firstOccAux s₂ ls := by
  induction ls with
  | nil => intro s₁ s₂ _; rfl
  | cons k ks ih =>
    intro s₁ s₂ h
    simp only [firstOccAux]
    by_cases hk : k ∈ s₁
    · rw [if_pos hk, if_pos ((h k).mp hk)]
      exact ih s₁ s₂ h
    · rw [if_neg hk, if_neg (fun hc => hk ((h k).mpr hc))]
      congr 1
      exact ih (k :: s₁) (k :: s₂) (by intro x; simp [h x])

theorem firstOccAux_mem (ls : List String) :
    ∀ seen k, k ∈ firstOccAux seen ls ↔ (k ∈ ls ∧ k ∉ seen) := by
  induction ls with
  | nil => intro seen k; simp [firstOccAux]
  | cons k₀ ks ih =>
    intro seen k
    simp only [firstOccAux]
    by_cases hk : k₀ ∈ seen
    · rw [if_pos hk, ih]
      constructor
      · rintro ⟨h1, h2⟩
        exact ⟨List.mem_cons_of_mem _ h1, h2⟩
      · rintro ⟨h1, h2⟩
        rw [List.mem_cons] at h1
        rcases h1 with rfl | h1
        · exact absurd hk h2
        · exact ⟨h1, h2⟩
    · rw [if_neg hk, List.mem_cons]
      constructor
      · rintro (rfl | h1)
        · exact ⟨by simp, hk⟩
        · rw [ih] at h1
          obtain ⟨h1, h2⟩ := h1
          simp only [List.mem_cons] at h2
          push_neg at h2
          exact ⟨List.mem_cons_of_mem _ h1, h2.2⟩
      · rintro ⟨h1, h2⟩
        rw [List.mem_cons] at h1
        rcases h1 with rfl | h1
        · exact Or.inl rfl
        · by_cases hkk : k = k₀
          · exact Or.inl hkk
          · exact Or.inr ((ih (k₀ :: seen) k).mpr ⟨h1, by simp [hkk, h2]⟩)

theorem firstOccAux_nodup (ls : List String) :
    ∀ seen, (firstOccAux seen ls).Nodup := by
  induction ls with
  | nil => intro seen; simp [firstOccAux]
  | cons k ks ih =>
    intro seen
    simp only [firstOccAux]
    split
    · exact ih seen
    · refine List.Nodup.cons ?_ (ih (k :: seen))
      intro hc
      rw [firstOccAux_mem] at hc
      exact hc.2 (by simp)

/-! ### Dedup fold invariants -/

theorem dedupGo_cons_none (f : CodeFinding) (fs : List CodeFinding)
    (m : List (String × CodeFinding)) (ks : List CodeFinding)
    (h : findingKey f = none) :
    dedupGo (f :: fs) m ks = dedupGo fs m (ks ++ [f]) := by
  simp [dedupGo, h]

theorem dedupGo_cons_some_new (f : CodeFinding) (fs : List CodeFinding)
    (m : List (String × CodeFinding)) (ks : List CodeFinding) (k : String)
    (h : findingKey f = some k) (hl : lookupA k m = none) :
    dedupGo (f :: fs) m ks = dedupGo fs (setAssoc k f m) ks := by
  simp [dedupGo, h, hl]

theorem dedupGo_cons_some_hit (f : CodeFinding) (fs : List CodeFinding)
    (m : List (String × CodeFinding)) (ks : List CodeFinding) (k : String)
    (ex : CodeFinding) (h : findingKey f = some k) (hl : lookupA k m = some ex) :
    dedupGo (f :: fs) m ks =
      if severityRank f.severity > severityRank ex.severity then
        dedupGo fs (setAssoc k f m) ks
      else dedupGo fs m ks := by
  simp [dedupGo, h, hl]

theorem dedupMap_cons_none (f : CodeFinding) (fs : List CodeFinding)
    (m : List (String × CodeFinding)) (h : findingKey f = none) :
    dedupMap (f :: fs) m = dedupMap fs m := by
  simp [dedupMap, h]

theorem dedupMap_cons_some_new (f : CodeFinding) (fs : List CodeFinding)
    (m : List (String × CodeFinding)) (k : String)
    (h : findingKey f = some k) (hl : lookupA k m = none) :
    dedupMap (f :: fs) m = dedupMap fs (setAssoc k f m) := by
  simp [dedupMap, h, hl]

theorem dedupMap_cons_some_hit (f : CodeFinding) (fs : List CodeFinding)
    (m : List (String × CodeFinding)) (k : String) (ex : CodeFinding)
    (h : findingKey f = some k) (hl : lookupA k m = some ex) :
    dedupMap (f :: fs) m =
      if severityRank f.severity > severityRank ex.severity then
        dedupMap fs (setAssoc k f m)
      else dedupMap fs m := by
  simp [dedupMap, h, hl]

theorem dedupGo_eq (fs : List CodeFinding) :
    ∀ m ks, dedupGo fs m ks =
      (dedupMap fs m).map Prod.snd ++
        (ks ++ fs.filter (fun f => (findingKey f).isNone)) := by
  induction fs with
  | nil => intro m ks; simp [dedupGo, dedupMap]
  | cons f fs ih =>
    intro m ks
    cases hk : findingKey f with
    | none =>
      rw [dedupGo_cons_none f fs m ks hk, dedupMap_cons_none f fs m hk, ih,
        List.filter_cons_of_pos (by simp [hk])]
      simp
    | some k =>
      rw [List.filter_cons_of_neg (by simp [hk])]
      cases hl : lookupA k m with
      | none =>
        rw [dedupGo_cons_some_new f fs m ks k hk hl,
          dedupMap_cons_some_new f fs m k hk hl, ih]
      | some ex =>
        rw [dedupGo_cons_some_hit f fs m ks k ex hk hl,
          dedupMap_cons_some_hit f fs m k ex hk hl]
        by_cases hgt : severityRank f.severity > severityRank ex.severity
        · rw [if_pos hgt, if_pos hgt, ih]
        · rw [if_neg hgt, if_neg hgt, ih]

theorem dedupMap_lookupA (fs : List CodeFinding) :
    ∀ m k, lookupA k (dedupMap fs m) =
      survivorFold (lookupA k m)
        (fs.filter (fun f => decide (findingKey f = some k))) := by
  induction fs with
  | nil => intro m k; simp [dedupMap, List.filter_nil, survivorFold]
  | cons f fs ih =>
    intro m k
    cases hk : findingKey f with
    | none =>
      rw [dedupMap_cons_none f fs m hk,
        List.filter_cons_of_neg (by simp [hk]), ih]
    | some k' =>
      by_cases hkk : k' = k
      · subst hkk
        rw [List.filter_cons_of_pos (by simp [hk])]
        cases hl : lookupA k' m with
        | none =>
          rw [dedupMap_cons_some_new f fs m k' hk hl, ih, lookupA_setAssoc_self]
          rfl
        | some ex =>
          rw [dedupMap_cons_some_hit f fs m k' ex hk hl]
          by_cases hgt : severityRank f.severity > severityRank ex.severity
          · rw [if_pos hgt, ih, lookupA_setAssoc_self]
            simp only [survivorFold]
            rw [if_pos hgt]
          · rw [if_neg hgt, ih, hl]
            simp only [survivorFold]
            rw [if_neg hgt]
      · rw [List.filter_cons_of_neg (by simp [hk, hkk])]
        cases hl : lookupA k' m with
        | none =>
          rw [dedupMap_cons_some_new f fs m k' hk hl, ih,
            lookupA_setAssoc_other _ _ _ _ hkk]
        | some ex =>
          rw [dedupMap_cons_some_hit f fs m k' ex hk hl]
          by_cases hgt : severityRank f.severity > severityRank ex.severity
          · rw [if_pos hgt, ih, lookupA_setAssoc_other _ _ _ _ hkk]
          · rw [if_neg hgt, ih]

theorem keysOf_cons_none (f : CodeFinding) (fs : List CodeFinding)
    (h : findingKey f = none) : keysOf (f :: fs) = keysOf fs := by
  simp [keysOf, List.filterMap_cons, h]

theorem keysOf_cons_some (f : CodeFinding) (fs : List CodeFinding) (k : String)
    (h : findingKey f = some k) : keysOf (f :: fs) = k :: keysOf fs := by
  simp [keysOf, List.filterMap_cons, h]

theorem dedupMap_map_fst (fs : List CodeFinding) :
    ∀ m, (dedupMap fs m).map Prod.fst =
      m.map Prod.fst ++ firstOccAux (m.map Prod.fst) (keysOf fs) := by
  induction fs with
  | nil => intro m; simp [dedupMap, keysOf, firstOccAux]
  | cons f fs ih =>
    intro m
    cases hk : findingKey f with
    | none =>
      rw [dedupMap_cons_none f fs m hk, keysOf_cons_none f fs hk]
      exact ih m
    | some k =>
      rw [keysOf_cons_some f fs k hk]
      cases hl : lookupA k m with
      | none =>
        have hkmem : k ∉ m.map Prod.fst := (lookupA_none_iff k m).mp hl
        have hset : (setAssoc k f m).map Prod.fst = m.map Prod.fst ++ [k] := by
          rw [setAssoc_of_lookupA_none k f m hl]
          simp
        rw [dedupMap_cons_some_new f fs m k hk hl, ih (setAssoc k f m), hset]
        simp only [firstOccAux, if_neg hkmem]
        rw [firstOccAux_congr (keysOf fs) (m.map Prod.fst ++ [k]) (k :: m.map Prod.fst)
          (by intro x; simp; tauto)]
        simp
      | some ex =>
        have hkmem : k ∈ m.map Prod.fst := by
          by_contra hc
          rw [← lookupA_none_iff] at hc
          rw [hl] at hc
          exact Option.noConfusion hc
        rw [dedupMap_cons_some_hit f fs m k ex hk hl]
        simp only [firstOccAux, if_pos hkmem]
        by_cases hgt : severityRank f.severity > severityRank ex.severity
        · rw [if_pos hgt, ih (setAssoc k f m), setAssoc_map_fst_of_mem k f m hkmem]
        · rw [if_neg hgt]
          exact ih m

/-! ### Survivor lemmas -/

theorem survivorFold_some_spec (l : List CodeFinding) :
    ∀ a, ∃ g, survivorFold (some a) l = some g ∧ (g = a ∨ g ∈ l) ∧
      severityRank a.severity ≤ severityRank g.severity ∧
      ∀ f ∈ l, severityRank f.severity ≤ severityRank g.severity := by
  induction l with
  | nil =>
    intro a
    exact ⟨a, rfl, Or.inl rfl, le_refl _, by simp⟩
  | cons f fs ih =>
    intro a
    by_cases hgt : severityRank f.severity > severityRank a.severity
    · obtain ⟨g, hfold, hmem, hle, hall⟩ := ih f
      refine ⟨g, ?_, ?_, ?_, ?_⟩
      · simp only [survivorFold, if_pos hgt]
        exact hfold
      · rcases hmem with rfl | hmem
        · exact Or.inr (by simp)
        · exact Or.inr (List.mem_cons_of_mem f hmem)
      · omega
      · intro x hx
        rw [List.mem_cons] at hx
        rcases hx with rfl | hx
        · exact hle
        · exact hall x hx
    · obtain ⟨g, hfold, hmem, hle, hall⟩ := ih a
      refine ⟨g, ?_, ?_, ?_, ?_⟩
      · simp only [survivorFold, if_neg hgt]
        exact hfold
      · rcases hmem with rfl | hmem
        · exact Or.inl rfl
        · exact Or.inr (List.mem_cons_of_mem f hmem)
      · exact hle
      · intro x hx
        rw [List.mem_cons] at hx
        rcases hx with rfl | hx
        · omega
        · exact hall x hx

theorem survivorFor_spec (fs : List CodeFinding) (k : String) (hk : k ∈ keysOf fs) :
    ∃ g, survivorFor fs k = some g ∧ g ∈ fs ∧ findingKey g = some k ∧
      ∀ f ∈ fs, findingKey f = some k →
        severityRank f.severity ≤ severityRank g.severity := by
  obtain ⟨f₀, hf₀, hkey₀⟩ : ∃ f ∈ fs, findingKey f = some k := by
    simpa [keysOf, List.mem_filterMap] using hk
  have hmem : f₀ ∈ fs.filter (fun f => decide (findingKey f = some k)) := by
    rw [List.mem_filter]
    exact ⟨hf₀, by simp [hkey₀]⟩
  cases hfil : fs.filter (fun f => decide (findingKey f = some k)) with
  | nil =>
    rw [hfil] at hmem
    simp at hmem
  | cons g₀ gs =>
    obtain ⟨g, hfold, hgmem, hle, hall⟩ := survivorFold_some_spec gs g₀
    have hging : g ∈ fs.filter (fun f => decide (findingKey f = some k)) := by
      rw [hfil]
      rcases hgmem with rfl | hgmem
      · simp
      · exact List.mem_cons_of_mem g₀ hgmem
    rw [List.mem_filter] at hging
    refine ⟨g, ?_, hging.1, by simpa using hging.2, ?_⟩
    · unfold survivorFor
      rw [hfil]
      exact hfold
    · intro f hf hkey
      have hfin : f ∈ fs.filter (fun f => decide (findingKey f = some k)) := by
        rw [List.mem_filter]
        exact ⟨hf, by simp [hkey]⟩
      rw [hfil, List.mem_cons] at hfin
      rcases hfin with rfl | hfin
      · exact hle
      · exact hall f hfin

/-! ### Association lists with distinct keys -/

theorem filterMap_congr_mem {α β : Type} (l : List α) (f g : α → Option β)
    (h : ∀ a ∈ l, f a = g a) : l.filterMap f = l.filterMap g := by
  induction l with
  | nil => rfl
  | cons a l ih =>
    rw [List.filterMap_cons, List.filterMap_cons, h a (by simp),
      ih (fun x hx => h x (by simp [hx]))]

theorem map_snd_eq_filterMap_lookupA {β : Type} (r : List (String × β))
    (h : (r.map Prod.fst).Nodup) :
    r.map Prod.snd = (r.map Prod.fst).filterMap (fun k => lookupA k r) := by
  induction r with
  | nil => rfl
  | cons e rest ih =>
    obtain ⟨k, v⟩ := e
    simp only [List.map_cons, List.nodup_cons] at h
    obtain ⟨hknot, hnodup⟩ := h
    simp only [List.map_cons, List.filterMap_cons]
    have hself : lookupA k ((k, v) :: rest) = some v := by simp [lookupA]
    rw [hself]
    congr 1
    rw [ih hnodup]
    apply filterMap_congr_mem
    intro k' hk'
    have hne : k ≠ k' := fun hc => hknot (hc ▸ hk')
    simp [lookupA, hne]

/-- Full functional characterization of `deduplicateFindings`: the keyed
part lists, for each string key in order of its first occurrence, the
survivor of that key's duplicate class (first finding wins ties, a later
one replaces it only with strictly higher severity); the keyless findings
follow in their original order. -/
theorem deduplicateFindings_eq (fs : List CodeFinding) :
    deduplicateFindings fs =
      (firstOccAux [] (keysOf fs)).filterMap (fun k => survivorFor fs k) ++
        fs.filter (fun f => (findingKey f).isNone) := by
  unfold deduplicateFindings
  rw [dedupGo_eq]
  simp only [List.nil_append]
  congr 1
  have hkeys : (dedupMap fs []).map Prod.fst = firstOccAux [] (keysOf fs) := by
    have := dedupMap_map_fst fs []
    simpa [dedupMap] using this
  have hnodup : ((dedupMap fs []).map Prod.fst).Nodup := by
    rw [hkeys]
    exact firstOccAux_nodup _ _
  rw [map_snd_eq_filterMap_lookupA _ hnodup, hkeys]
  apply filterMap_congr_mem
  intro k _
  rw [dedupMap_lookupA]
  rfl

/-! ### Verdicts and result merging -/

/-- The code-review verdict enum `['approve','request_changes','reject']`. -/
inductive CodeVerdict : Type where
  | approve
  | request_changes
  | reject
deriving DecidableEq, Repr

/-- Model of `codeVerdictRank`: `{ approve: 0, request_changes: 1, reject: 2 }`. -/
def codeVerdictRank : CodeVerdict → Nat
  | .approve => 0
  | .request_changes => 1
  | .reject => 2

/-- One chunk's review result, `Omit<CodeReviewResult, 'chunks_reviewed'>`. -/
structure CodeChunkResult : Type where
  verdict : CodeVerdict
  summary : String
  findings : List CodeFinding
  session_id : String

/-- The full code-review result; `chunks_reviewed` is an optional field. -/
structure CodeReviewResult : Type where
  verdict : CodeVerdict
  summary : String
  findings : List CodeFinding
  session_id : String
  chunks_reviewed : Option Nat

/-- The body of the worst-verdict loop in `mergeCodeResults`. -/
def worstStep (w : CodeVerdict) (x : CodeChunkResult) : CodeVerdict :=
  if codeVerdictRank x.verdict > codeVerdictRank w then x.verdict else w

/-- Model of `mergeCodeResults`: worst verdict (loop over all results
starting from `results[0].verdict`), summaries joined with a single
space, findings concatenated then deduplicated, the supplied session id,
and `chunks_reviewed = results.length`.  (On an empty list the JS code
throws on `results[0]`; call sites only pass at least two chunk results,
and the model returns `approve` in that unreachable case.) -/
def mergeCodeResults (results : List CodeChunkResult) (sessionId : String) :
    CodeReviewResult :=
  { verdict :=
      match results with
      | [] => .approve
      | r :: _ => results.foldl worstStep r.verdict
    summary := String.intercalate " " (results.map (fun r => r.summary))
    findings := deduplicateFindings (results.flatMap (fun r => r.findings))
    session_id := sessionId
    chunks_reviewed := some results.length }

theorem foldl_worstStep_spec (l : List CodeChunkResult) :
    ∀ w : CodeVerdict,
      (∀ x ∈ l, codeVerdictRank x.verdict ≤ codeVerdictRank (l.foldl worstStep w)) ∧
      codeVerdictRank w ≤ codeVerdictRank (l.foldl worstStep w) ∧
      (l.foldl worstStep w = w ∨ ∃ x ∈ l, x.verdict = l.foldl worstStep w) := by
  induction l with
  | nil =>
    intro w
    exact ⟨by simp, le_refl _, Or.inl rfl⟩
  | cons x l ih =>
    intro w
    obtain ⟨hall, hwle, hor⟩ := ih (worstStep w x)
    have hstep : l.foldl worstStep (worstStep w x) = (x :: l).foldl worstStep w := rfl
    have hwx : codeVerdictRank w ≤ codeVerdictRank (worstStep w x) := by
      unfold worstStep
      split
      · omega
      · exact le_refl _
    have hxx : codeVerdictRank x.verdict ≤ codeVerdictRank (worstStep w x) := by
      unfold worstStep
      split
      · exact le_refl _
      · omega
    refine ⟨?_, ?_, ?_⟩
    · intro y hy
      rw [List.mem_cons] at hy
      rcases hy with rfl | hy
      · exact le_trans hxx hwle
      · exact hall y hy
    · exact le_trans hwx hwle
    · rcases hor with heq | ⟨y, hy, hyv⟩
      · rw [List.foldl_cons, heq]
        unfold worstStep
        split
        · exact Or.inr ⟨x, by simp, rfl⟩
        · exact Or.inl rfl
      · exact Or.inr ⟨y, List.mem_cons_of_mem x hy, hyv⟩

/-- Claim C3: the merged verdict of a non-empty list of chunk results is
the maximum of the per-chunk verdicts under the rank order
`approve < request_changes < reject` — it dominates every chunk's verdict
and is attained by some chunk. -/
theorem mergeCodeResults_verdict_max (r : CodeChunkResult)
    (rs : List CodeChunkResult) (sid : String) :
    (∀ x ∈ r :: rs, codeVerdictRank x.verdict ≤
      codeVerdictRank (mergeCodeResults (r :: rs) sid).verdict) ∧
    ∃ x ∈ r :: rs, x.verdict = (mergeCodeResults (r :: rs) sid).verdict := by
  have hv : (mergeCodeResults (r :: rs) sid).verdict =
      (r :: rs).foldl worstStep r.verdict := rfl
  obtain ⟨hall, hwle, hor⟩ := foldl_worstStep_spec (r :: rs) r.verdict
  refine ⟨by rw [hv]; exact hall, ?_⟩
  rw [hv]
  rcases hor with heq | hex
  · exact ⟨r, by simp, heq.symm⟩
  · exact hex

/-! ### C2 and C10 -/

theorem filterMap_map_key (L : List String) (v : String → Option CodeFinding)
    (h : ∀ k ∈ L, ∃ g, v k = some g ∧ findingKey g = some k) :
    (L.filterMap v).map findingKey = L.map some := by
  induction L with
  | nil => rfl
  | cons k L ih =>
    obtain ⟨g, hv, hkey⟩ := h k (by simp)
    rw [List.filterMap_cons, hv]
    simp only [List.map_cons]
    rw [hkey, ih (fun x hx => h x (by simp [hx]))]

theorem dedup_pair_keep_first (f g : CodeFinding) (k : String)
    (hf : findingKey f = some k) (hg : findingKey g = some k)
    (hle : severityRank g.severity ≤ severityRank f.severity) :
    deduplicateFindings [f, g] = [f] := by
  unfold deduplicateFindings
  rw [dedupGo_cons_some_new f [g] [] [] k hf rfl]
  have hset : setAssoc k f ([] : List (String × CodeFinding)) = [(k, f)] := rfl
  rw [hset, dedupGo_cons_some_hit g [] [(k, f)] [] k f hg (by simp [lookupA]),
    if_neg (by omega)]
  rfl

theorem dedup_pair_replace (f g : CodeFinding) (k : String)
    (hf : findingKey f = some k) (hg : findingKey g = some k)
    (hgt : severityRank f.severity < severityRank g.severity) :
    deduplicateFindings [f, g] = [g] := by
  unfold deduplicateFindings
  rw [dedupGo_cons_some_new f [g] [] [] k hf rfl]
  have hset : setAssoc k f ([] : List (String × CodeFinding)) = [(k, f)] := rfl
  rw [hset, dedupGo_cons_some_hit g [] [(k, f)] [] k f hg (by simp [lookupA]),
    if_pos (by omega)]
  have hset2 : setAssoc k g [(k, f)] = [(k, g)] := by simp [setAssoc]
  rw [hset2]
  rfl

/-- Claim C10: the keyed part of `deduplicateFindings` lists, in order of
each key's first occurrence, the survivor of that key's class; when a
later duplicate has equal (or lower) severity the first-encountered
finding survives, and a later duplicate replaces the stored one exactly
when its severity rank is strictly higher. -/
theorem dedup_first_occurrence_semantics :
    (∀ fs : List CodeFinding, deduplicateFindings fs =
      (firstOccAux [] (keysOf fs)).filterMap (fun k => survivorFor fs k) ++
        fs.filter (fun f => (findingKey f).isNone)) ∧
    (∀ (f g : CodeFinding) (k : String),
      findingKey f = some k → findingKey g = some k →
      severityRank g.severity ≤ severityRank f.severity →
      deduplicateFindings [f, g] = [f]) ∧
    (∀ (f g : CodeFinding) (k : String),
      findingKey f = some k → findingKey g = some k →
      severityRank f.severity < severityRank g.severity →
      deduplicateFindings [f, g] = [g]) :=
  ⟨deduplicateFindings_eq,
    fun f g k hf hg hle => dedup_pair_keep_first f g k hf hg hle,
    fun f g k hf hg hgt => dedup_pair_replace f g k hf hg hgt⟩

/-- Claim C2 (amended): in a merged multi-chunk code result, findings are
deduplicated by the string key `file:line:category` when both `file` and
`line` are non-null: the surviving keyed findings come first (one per
string key, drawn from the input, with severity maximal over all input
findings sharing the key), followed by the null-keyed findings in their
original order, none of which are ever deduplicated. -/
theorem merged_findings_dedup (r : CodeChunkResult) (rs : List CodeChunkResult)
    (sid : String) :
    ∃ keyed : List CodeFinding,
      (mergeCodeResults (r :: rs) sid).findings =
        keyed ++ ((r :: rs).flatMap (fun x => x.findings)).filter
          (fun f => (findingKey f).isNone) ∧
      (∀ f ∈ keyed, (findingKey f).isSome = true) ∧
      (∀ f ∈ keyed, f ∈ (r :: rs).flatMap (fun x => x.findings)) ∧
      (keyed.map findingKey).Nodup ∧
      (∀ g ∈ (r :: rs).flatMap (fun x => x.findings),
        (findingKey g).isSome = true →
        ∃ f ∈ keyed, findingKey f = findingKey g ∧
          severityRank g.severity ≤ severityRank f.severity) := by
  refine ⟨(firstOccAux []
      (keysOf ((r :: rs).flatMap (fun x => x.findings)))).filterMap
      (fun k => survivorFor ((r :: rs).flatMap (fun x => x.findings)) k),
    ?_, ?_, ?_, ?_, ?_⟩
  · have heq : (mergeCodeResults (r :: rs) sid).findings =
        deduplicateFindings ((r :: rs).flatMap (fun x => x.findings)) := rfl
    rw [heq, deduplicateFindings_eq]
  · intro f hf
    rw [List.mem_filterMap] at hf
    obtain ⟨k, hkmem, hsurv⟩ := hf
    have hkin := ((firstOccAux_mem _ _ _).mp hkmem).1
    obtain ⟨g, hsome, _, hgkey, _⟩ := survivorFor_spec _ k hkin
    rw [hsurv] at hsome
    injection hsome with hfg
    rw [← hfg] at hgkey
    simp [hgkey]
  · intro f hf
    rw [List.mem_filterMap] at hf
    obtain ⟨k, hkmem, hsurv⟩ := hf
    have hkin := ((firstOccAux_mem _ _ _).mp hkmem).1
    obtain ⟨g, hsome, hgmem, _, _⟩ := survivorFor_spec _ k hkin
    rw [hsurv] at hsome
    injection hsome with hfg
    rw [hfg]
    exact hgmem
  · rw [filterMap_map_key]
    · exact List.Nodup.map (Option.some_injective String) (firstOccAux_nodup _ _)
    · intro k hk
      have hkin := ((firstOccAux_mem _ _ _).mp hk).1
      obtain ⟨g, hsome, _, hgkey, _⟩ := survivorFor_spec _ k hkin
      exact ⟨g, hsome, hgkey⟩
  · intro g hg hgsome
    obtain ⟨k, hgk⟩ := Option.isSome_iff_exists.mp hgsome
    have hkin : k ∈ keysOf ((r :: rs).flatMap (fun x => x.findings)) := by
      rw [keysOf, List.mem_filterMap]
      exact ⟨g, hg, hgk⟩
    have hkfo : k ∈ firstOccAux []
        (keysOf ((r :: rs).flatMap (fun x => x.findings))) :=
      (firstOccAux_mem _ _ _).mpr ⟨hkin, by simp⟩
    obtain ⟨f, hsome, _, hfkey, hmax⟩ := survivorFor_spec _ k hkin
    refine ⟨f, ?_, ?_, ?_⟩
    · rw [List.mem_filterMap]
      exact ⟨k, hkfo, hsome⟩
    · rw [hfkey, hgk]
    · exact hmax g hg hgk

/-- Claim C2 (counterexample): two keyed findings with distinct
`(file, line, category)` triples — `("a:1", 2, "c")` and `("a", 1, "2:c")`
— share the string key `"a:1:2:c"`, so only one of them survives
deduplication, contradicting dedup by the triple. -/
theorem merged_findings_dedup_cex :
    ((CodeFinding.mk CodeFindingSeverity.minor "c" "" (some "a:1") (some 2) none).file,
      (CodeFinding.mk CodeFindingSeverity.minor "c" "" (some "a:1") (some 2) none).line,
      (CodeFinding.mk CodeFindingSeverity.minor "c" "" (some "a:1") (some 2) none).category) ≠
      ((CodeFinding.mk CodeFindingSeverity.minor "2:c" "" (some "a") (some 1) none).file,
        (CodeFinding.mk CodeFindingSeverity.minor "2:c" "" (some "a") (some 1) none).line,
        (CodeFinding.mk CodeFindingSeverity.minor "2:c" "" (some "a") (some 1) none).category) ∧
    deduplicateFindings
        [CodeFinding.mk CodeFindingSeverity.minor "c" "" (some "a:1") (some 2) none,
          CodeFinding.mk CodeFindingSeverity.minor "2:c" "" (some "a") (some 1) none] =
      [CodeFinding.mk CodeFindingSeverity.minor "c" "" (some "a:1") (some 2) none] := by
  decide

/-! ## Result type and error classification (src/utils/errors.ts, src/codex/client.ts) -/

/-- The tagged result type `{ ok: true; data } | { ok: false; error }`. -/
inductive Result (α : Type) : Type where
  | ok (data : α)
  | err (error : String)
deriving DecidableEq, Repr

/-- JS `String.prototype.includes` on character lists ("" is contained in
everything). -/
def containsSub (needle : List Char) : List Char → Bool
  | [] => needle.isEmpty
  | c :: cs => needle.isPrefixOf (c :: cs) || containsSub needle cs

/-- JS `toLowerCase` (adequate for the ASCII patterns the classifier
matches). -/
def toLowerChars (s : List Char) : List Char :=
  s.map Char.toLower

/-- A double or single quote, the character class of the JS regex
`["']` used to extract a model name. -/
def isQuoteChar (c : Char) : Bool :=
  c = '"' || c = Char.ofNat 39

/-- Model of `raw.match(/["']([^"']+)["'])/)?.[1]`: the earliest nonempty
run of non-quote characters enclosed by quote characters. -/
def extractQuoted : List Char → Option (List Char)
  | [] => none
  | c :: cs =>
    if isQuoteChar c then
      if (cs.takeWhile (fun x => !(isQuoteChar x))) ≠ [] ∧
          cs.dropWhile (fun x => !(isQuoteChar x)) ≠ [] then
        some (cs.takeWhile (fun x => !(isQuoteChar x)))
      else extractQuoted cs
    else extractQuoted cs

/-- Model of `classifyError` (src/codex/client.ts lines 59-101): maps a
raw error message to an `(ErrorCode, message)` pair by case-insensitive
substring matching. -/
def classifyError (raw : String) (contextModel : Option String) : String × String :=
  if containsSub "api_key".toList (toLowerChars raw.toList) ||
      containsSub "authentication".toList (toLowerChars raw.toList) ||
      containsSub "401".toList (toLowerChars raw.toList) then
    ("AUTH_ERROR",
      "No OpenAI API key found. Set OPENAI_API_KEY or run: codex login --api-key YOUR_KEY")
  else if containsSub "model".toList (toLowerChars raw.toList) &&
      (containsSub "not supported".toList (toLowerChars raw.toList) ||
        containsSub "not found".toList (toLowerChars raw.toList)) then
    ("MODEL_ERROR",
      "Model \"" ++
        (match extractQuoted raw.toList with
          | some q => String.mk q
          | none => contextModel.getD "your configured model") ++
        "\" is not supported. Try gpt-5.2-codex or configure a different model in .reviewbridge.json.")
  else if containsSub "429".toList (toLowerChars raw.toList) ||
      containsSub "rate_limit".toList (toLowerChars raw.toList) ||
      containsSub "rate limit".toList (toLowerChars raw.toList) then
    ("RATE_LIMITED", "Rate limited by OpenAI. Wait a moment and retry.")
  else if containsSub "fetch failed".toList (toLowerChars raw.toList) ||
      containsSub "econnrefused".toList (toLowerChars raw.toList) ||
      containsSub "enotfound".toList (toLowerChars raw.toList) then
    ("NETWORK_ERROR", "Could not reach OpenAI API. Check your internet connection.")
  else ("UNKNOWN_ERROR", raw)

/-! ## `runReview` attempt loop (src/codex/client.ts lines 112-176) -/

/-- A JS error value as seen by `isAbortError` and `classifyError`. -/
structure ThrownError : Type where
  name : String
  message : String

/-- Model of `isAbortError`. -/
def isAbortError (e : ThrownError) : Bool :=
  e.name == "AbortError" ||
    containsSub "aborted".toList (toLowerChars e.message.toList)

/-- What one `thread.run` call did: threw, or returned a final response. -/
inductive TurnResult : Type where
  | threw (e : ThrownError)
  | responded (finalResponse : String)

/-- The `for (attempt = 0; attempt < 2; attempt++)` loop of `runReview`,
parameterised over the thread behaviour `turn` (attempt index and prompt
to response — the loop always reuses the single thread in scope, so one
oracle represents that thread), `JSON.parse` (`parseJson`, `none` on
malformed JSON) and `responseSchema.safeParse`.  `threadId` is
`thread.id`.  Returns the result together with the list of prompts sent.
`fuel` counts the remaining attempts (initially 2); when it runs out
the loop exits with `CODEX_PARSE_ERROR: <lastError>`. -/
def runReviewGo {J T : Type} (configModel : Option String) (timeoutSeconds : Nat)
    (turn : Nat → String → TurnResult) (parseJson : String → Option J)
    (safeParse : J → Except String T) (prompt : String)
    (threadId : Option String) (sessionId : Option String) :
    Nat → Nat → Option String → List String → Result (T × String) × List String
  | _, 0, lastError, sent =>
    (Result.err ("CODEX_PARSE_ERROR: " ++ lastError.getD "undefined"), sent)
  | attempt, fuel + 1, _lastError, sent =>
    match turn attempt prompt with
    | .threw e =>
      if isAbortError e then
        (Result.err ("CODEX_TIMEOUT: review timed out after " ++
          toString timeoutSeconds ++ "s"), sent ++ [prompt])
      else
        (Result.err ((classifyError e.message configModel).1 ++ ": " ++
          (classifyError e.message configModel).2), sent ++ [prompt])
    | .responded s =>
      match parseJson s with
      | none =>
        runReviewGo configModel timeoutSeconds turn parseJson safeParse prompt
          threadId sessionId (attempt + 1) fuel
          (some "malformed JSON in response") (sent ++ [prompt])
      | some j =>
        match safeParse j with
        | .error msg =>
          runReviewGo configModel timeoutSeconds turn parseJson safeParse prompt
            threadId sessionId (attempt + 1) fuel (some msg) (sent ++ [prompt])
        | .ok v =>
          match (match threadId with | some t => some t | none => sessionId) with
          | none =>
            (Result.err "CODEX_PARSE_ERROR: missing session ID after successful review",
              sent ++ [prompt])
          | some rid =>
            if rid = "" then
              (Result.err "CODEX_PARSE_ERROR: missing session ID after successful review",
                sent ++ [prompt])
            else (Result.ok (v, rid), sent ++ [prompt])

/-- Model of the attempt phase of `runReview` (after thread acquisition):
two attempts, starting at attempt 0 with no recorded error and no prompts
sent. -/
def runReview {J T : Type} (configModel : Option String) (timeoutSeconds : Nat)
    (turn : Nat → String → TurnResult) (parseJson : String → Option J)
    (safeParse : J → Except String T) (prompt : String)
    (threadId : Option String) (sessionId : Option String) :
    Result (T × String) × List String :=
  runReviewGo configModel timeoutSeconds turn parseJson safeParse prompt
    threadId sessionId 0 2 none []

/-- An attempt whose response `s` fails JSON parsing (recorded message is
`malformed JSON in response`) or schema validation (recorded message is
the validation error). -/
def attemptFails {J T : Type} (parseJson : String → Option J)
    (safeParse : J → Except String T) (s e : String) : Prop :=
  (parseJson s = none ∧ e = "malformed JSON in response") ∨
  (∃ j, parseJson s = some j ∧ safeParse j = Except.error e)

/-- Claim C4: when both attempts' responses fail JSON parsing or schema
validation, `runReview` sends the same prompt exactly twice (the retry
reuses the prompt and the single thread in scope) and returns
`CODEX_PARSE_ERROR` carrying the second (last-recorded) failure
message. -/
theorem runReview_retry_once_then_parse_error {J T : Type}
    (configModel : Option String) (timeoutSeconds : Nat)
    (turn : Nat → String → TurnResult) (parseJson : String → Option J)
    (safeParse : J → Except String T) (prompt : String)
    (threadId sessionId : Option String) (s₀ s₁ e₀ e₁ : String)
    (h0 : turn 0 prompt = TurnResult.responded s₀)
    (h1 : turn 1 prompt = TurnResult.responded s₁)
    (hf0 : attemptFails parseJson safeParse s₀ e₀)
    (hf1 : attemptFails parseJson safeParse s₁ e₁) :
    runReview configModel timeoutSeconds turn parseJson safeParse prompt
        threadId sessionId =
      (Result.err ("CODEX_PARSE_ERROR: " ++ e₁), [prompt, prompt]) := by
  have step0 : runReviewGo configModel timeoutSeconds turn parseJson safeParse
      prompt threadId sessionId 0 2 none [] =
      runReviewGo configModel timeoutSeconds turn parseJson safeParse prompt
        threadId sessionId 1 1 (some e₀) [prompt] := by
    rcases hf0 with ⟨hp, he⟩ | ⟨j, hp, hv⟩
    · subst he
      simp [runReviewGo, h0, hp]
    · simp [runReviewGo, h0, hp, hv]
  have step1 : runReviewGo configModel timeoutSeconds turn parseJson safeParse
      prompt threadId sessionId 1 1 (some e₀) [prompt] =
      runReviewGo configModel timeoutSeconds turn parseJson safeParse prompt
        threadId sessionId 2 0 (some e₁) [prompt, prompt] := by
    rcases hf1 with ⟨hp, he⟩ | ⟨j, hp, hv⟩
    · subst he
      simp [runReviewGo, h1, hp]
    · simp [runReviewGo, h1, hp, hv]
  unfold runReview
  rw [step0, step1]
  rfl

/-- Witness for `runReview_retry_once_then_parse_error`: a parser that
always fails and a thread that always responds `"not json"`. -/
theorem runReview_retry_once_then_parse_error_witness :
    runReview (J := Nat) (T := Nat) none 300 (fun _ _ => TurnResult.responded "not json")
        (fun _ => none) (fun j => Except.ok j) "p" (some "t") none =
      (Result.err ("CODEX_PARSE_ERROR: " ++ "malformed JSON in response"),
        ["p", "p"]) :=
  runReview_retry_once_then_parse_error none 300 _ _ _ "p" (some "t") none
    "not json" "not json" "malformed JSON in response" "malformed JSON in response"
    rfl rfl (Or.inl ⟨rfl, rfl⟩) (Or.inl ⟨rfl, rfl⟩)

/-! ## Empty-diff paths of `reviewCode` and `reviewPrecommit` -/

theorem chunkDiff_eq_nil_iff (d : List Char) (n : Int) :
    chunkDiff d n = [] ↔ trimChars d = [] := by
  constructor
  · intro h
    by_contra htr
    unfold chunkDiff at h
    rw [if_neg htr] at h
    by_cases h0 : n ≤ 0
    · rw [if_pos h0] at h
      simp at h
    · rw [if_neg h0] at h
      by_cases hest : (estimateTokens d : Int) ≤ n
      · rw [if_pos hest] at h
        simp at h
      · rw [if_neg hest] at h
        by_cases hlen : (chunkPieces d n).length ≤ 1
        · rw [if_pos hlen] at h
          simp at h
        · rw [if_neg hlen] at h
          have hd : d ≠ [] := by
            rintro rfl
            exact htr rfl
          have hne := chunkPieces_mem_ne_nil d n hd
          cases hcp : chunkPieces d n with
          | nil =>
            rw [hcp] at hlen
            simp at hlen
          | cons p ps =>
            rw [hcp, packPieces_nil_start] at h
            have hp : p ≠ [] := hne p (by rw [hcp]; simp)
            exact packPieces_ne_nil n ps p hp h
  · intro h
    unfold chunkDiff
    rw [if_pos h]

/-- The configuration fields consulted by the modelled client paths
(`ReviewBridgeConfig`): the chunk-token budget, the project context, and
the default code-review criteria. -/
structure ReviewBridgeConfig : Type where
  max_chunk_tokens : Int
  project_context : String
  code_criteria : List String

/-- `PROMPT_OVERHEAD_TOKENS`: fixed prompt-framing overhead. -/
def PROMPT_OVERHEAD_TOKENS : Int := 2000

/-- Model of `computeVariableOverhead`: sum of token estimates over the
non-empty parts. -/
def computeVariableOverhead (parts : List String) : Nat :=
  parts.foldl
    (fun total part => if part ≠ "" then total + estimateTokens part.toList else total) 0

/-- The `reviewCode` input (`CodeReviewInput`); the diff is kept at
character level for the chunker. -/
structure CodeReviewInput : Type where
  diff : List Char
  context : Option String
  criteria : Option (List String)
  session_id : Option String

/-- The diff budget computed inside `reviewCode`:
`max(max_chunk_tokens - PROMPT_OVERHEAD_TOKENS - variableOverhead, 500)`
with variable overhead over `[context ?? '', project_context,
criteria.join(', ')]` and `criteria = input.criteria ?? config criteria`. -/
def codeDiffBudget (config : ReviewBridgeConfig) (input : CodeReviewInput) : Int :=
  max (config.max_chunk_tokens - PROMPT_OVERHEAD_TOKENS -
    (computeVariableOverhead [input.context.getD "", config.project_context,
      String.intercalate ", " (input.criteria.getD config.code_criteria)] : Int)) 500

/-- The control paths of `reviewCode` after chunking: synthetic result
with no SDK call, single-chunk turn, or sequential multi-chunk turns. -/
inductive ReviewCodePath : Type where
  | noSdk (result : CodeReviewResult)
  | singleChunk (chunkedDiff : List Char)
  | multiChunk (chunks : List (List Char))

/-- Model of the chunk dispatch of `reviewCode` (src/codex/client.ts lines
278-340): zero chunks yield the synthetic approve without touching the
SDK; one chunk goes down the single-turn path; otherwise the chunks are
reviewed sequentially. -/
def reviewCode (config : ReviewBridgeConfig) (input : CodeReviewInput) :
    ReviewCodePath :=
  match chunkDiff input.diff (codeDiffBudget config input) with
  | [] =>
    .noSdk
      { verdict := .approve, summary := "No changes to review.",
        findings := [], session_id := input.session_id.getD "",
        chunks_reviewed := none }
  | [c] => .singleChunk c
  | cs => .multiChunk cs

/-- Claim C5: when chunking yields zero chunks — which happens exactly for
empty or whitespace-only diffs — `reviewCode` returns the synthetic
approve (`"No changes to review."`, no findings, caller session id or
`""`, no `chunks_reviewed`) without any SDK path. -/
theorem reviewCode_empty_diff (config : ReviewBridgeConfig)
    (input : CodeReviewInput)
    (h : chunkDiff input.diff (codeDiffBudget config input) = []) :
    reviewCode config input =
      ReviewCodePath.noSdk
        { verdict := .approve,
          summary := "No changes to review.", findings := [],
          session_id := input.session_id.getD "", chunks_reviewed := none } ∧
    ∀ (d : List Char) (n : Int), chunkDiff d n = [] ↔ trimChars d = [] := by
  constructor
  · unfold reviewCode
    rw [h]
  · exact chunkDiff_eq_nil_iff

/-- Witness for `reviewCode_empty_diff` on a whitespace diff with a
caller-supplied session id. -/
theorem reviewCode_empty_diff_witness :
    reviewCode ⟨8000, "ctx", ["style"]⟩ ⟨[' '], none, none, some "sid"⟩ =
      ReviewCodePath.noSdk
        { verdict := .approve,
          summary := "No changes to review.", findings := [],
          session_id := "sid", chunks_reviewed := none } :=
  (reviewCode_empty_diff ⟨8000, "ctx", ["style"]⟩ ⟨[' '], none, none, some "sid"⟩
    (by decide)).1

/-! ## Precommit path (src/codex/client.ts lines 342-401,
src/utils/resolve-diff.ts) -/

/-- The precommit result shape (`PrecommitResultSchema`). -/
structure PrecommitResult : Type where
  ready_to_commit : Bool
  blockers : List String
  warnings : List String
  session_id : String
  chunks_reviewed : Option Nat

/-- The `reviewPrecommit` input (`PrecommitReviewInput`). -/
structure PrecommitReviewInput : Type where
  diff : List Char
  checklist : Option (List String)
  session_id : Option String

/-- The diff budget computed inside `reviewPrecommit`, with variable
overhead over `[project_context, checklist.join(', ')]` and
`checklist = input.checklist ?? []`. -/
def precommitDiffBudget (config : ReviewBridgeConfig)
    (input : PrecommitReviewInput) : Int :=
  max (config.max_chunk_tokens - PROMPT_OVERHEAD_TOKENS -
    (computeVariableOverhead [config.project_context,
      String.intercalate ", " (input.checklist.getD [])] : Int)) 500

/-- The control paths of `reviewPrecommit` after chunking. -/
inductive PrecommitPath : Type where
  | noSdk (result : PrecommitResult)
  | singleChunk (chunkedDiff : List Char)
  | multiChunk (chunks : List (List Char))

/-- Model of the chunk dispatch of `reviewPrecommit`: zero chunks yield
the synthetic pass without touching the SDK. -/
def reviewPrecommit (config : ReviewBridgeConfig)
    (input : PrecommitReviewInput) : PrecommitPath :=
  match chunkDiff input.diff (precommitDiffBudget config input) with
  | [] =>
    .noSdk
      { ready_to_commit := true, blockers := [], warnings := [],
        session_id := input.session_id.getD "", chunks_reviewed := none }
  | [c] => .singleChunk c
  | cs => .multiChunk cs

/-- The `review_precommit` argument object consumed by the diff
resolver. -/
structure PrecommitArgs : Type where
  diff : Option String
  auto_diff : Option Bool

/-- The `NO_STAGED_CHANGES` sentinel. -/
def NO_STAGED_CHANGES : String := "NO_STAGED_CHANGES"

/-- Model of `resolvePrecommitDiff` (src/utils/resolve-diff.ts): an
explicit `diff` wins even when empty; otherwise, unless `auto_diff` is
exactly `false`, the staged git diff (`stagedDiff`, the awaited
`getStagedDiff()` outcome) is used, with the empty staged diff mapped to
the `NO_STAGED_CHANGES` error. -/
def resolvePrecommitDiff (args : PrecommitArgs) (stagedDiff : Result String) :
    Result String :=
  match args.diff with
  | some d => Result.ok d
  | none =>
    if args.auto_diff ≠ some false then
      match stagedDiff with
      | .err e => Result.err e
      | .ok d =>
        if d = "" then
          Result.err (NO_STAGED_CHANGES ++
            ": No staged changes found. Stage files with git add first.")
        else Result.ok d
    else Result.err "auto_diff disabled and no diff provided"

/-- Claim C9: an explicit diff — including the empty string — passes
through the precommit diff resolver unchanged, and a diff that chunks to
zero pieces makes `reviewPrecommit` return the synthetic pass
(`ready_to_commit = true`, empty blockers and warnings, caller session id
or `""`, no `chunks_reviewed`) without any SDK path; an explicit empty
diff therefore yields a passing precommit verdict. -/
theorem reviewPrecommit_empty_diff (config : ReviewBridgeConfig)
    (input : PrecommitReviewInput) (stagedDiff : Result String)
    (a : Option Bool) (d : String)
    (h : chunkDiff input.diff (precommitDiffBudget config input) = []) :
    resolvePrecommitDiff ⟨some d, a⟩ stagedDiff = Result.ok d ∧
    reviewPrecommit config input =
      PrecommitPath.noSdk
        { ready_to_commit := true, blockers := [],
          warnings := [], session_id := input.session_id.getD "",
          chunks_reviewed := none } := by
  constructor
  · rfl
  · unfold reviewPrecommit
    rw [h]

/-- Witness for `reviewPrecommit_empty_diff` with an explicit empty diff. -/
theorem reviewPrecommit_empty_diff_witness :
    resolvePrecommitDiff ⟨some "", some true⟩ (Result.ok "ignored") =
        Result.ok "" ∧
    reviewPrecommit ⟨8000, "ctx", []⟩ ⟨"".toList, none, some "sid"⟩ =
      PrecommitPath.noSdk
        { ready_to_commit := true, blockers := [],
          warnings := [], session_id := "sid", chunks_reviewed := none } :=
  reviewPrecommit_empty_diff ⟨8000, "ctx", []⟩ ⟨"".toList, none, some "sid"⟩
    (Result.ok "ignored") (some true) "" (by decide)

/-! ## Session tracker (src/storage/session-tracker.ts) -/

/-- The review-log entry saved on success (`SaveReviewInput`); `type` is
one of `plan`, `code`, `precommit`. -/
structure SaveReviewInput : Type where
  session_id : String
  type : String
  verdict : String
  summary : String
  findings_json : String
deriving DecidableEq, Repr

/-- A store mutation issued by the tracker, in issue order. -/
inductive StoreOp : Type where
  | activate (id : String)
  | getOrCreate (id : String)
  | save (review : SaveReviewInput)
  | markCompleted (id : String)
  | markFailed (id : String)
deriving DecidableEq, Repr

/-- The tracker's captured state: the session id remembered by a
successful preflight. -/
structure TrackerState : Type where
  preflightId : Option String

/-- Model of `preflight`: with a string session id, `activateSession` is
issued; only on its success is `preflightId` remembered (`activateOk`
stands for the store call's outcome; on failure the error is only
logged). A missing id does nothing. -/
def preflight (st : TrackerState) (sessionId : Option String)
    (activateOk : Bool) : TrackerState × List StoreOp :=
  match sessionId with
  | none => (st, [])
  | some id =>
    if activateOk then ({ preflightId := some id }, [StoreOp.activate id])
    else (st, [StoreOp.activate id])

/-- Model of `recordSuccess`: without a preflight id, `getOrCreateSession`
is issued for the reviewer-returned id; then the review is saved; then
`markSessionCompleted` is issued for `preflightId ?? resultSessionId`.
(Failures of the store calls are logged and swallowed, so they do not
change which calls are issued.) -/
def recordSuccess (st : TrackerState) (resultSessionId : String)
    (review : SaveReviewInput) : List StoreOp :=
  (match st.preflightId with
   | none => [StoreOp.getOrCreate resultSessionId]
   | some _ => []) ++
  [StoreOp.save review] ++
  [StoreOp.markCompleted (st.preflightId.getD resultSessionId)]

/-- Model of `recordFailure`: only a remembered preflight id is marked
failed. -/
def recordFailure (st : TrackerState) : List StoreOp :=
  match st.preflightId with
  | none => []
  | some id => [StoreOp.markFailed id]

/-- Claim C7: after a successful `preflight(X)`, `recordSuccess(rid, e)`
marks session `X` completed — not the reviewer-returned `rid` — even when
the two ids differ (and issues no `getOrCreate`, since a preflight id
exists). -/
theorem recordSuccess_completes_preflight_id (st₀ : TrackerState)
    (X rid : String) (review : SaveReviewInput) (hne : X ≠ rid) :
    recordSuccess (preflight st₀ (some X) true).1 rid review =
      [StoreOp.save review, StoreOp.markCompleted X] ∧
    StoreOp.markCompleted rid ∉
      recordSuccess (preflight st₀ (some X) true).1 rid review := by
  refine ⟨rfl, ?_⟩
  intro hc
  have heq : recordSuccess (preflight st₀ (some X) true).1 rid review =
      [StoreOp.save review, StoreOp.markCompleted X] := rfl
  rw [heq, List.mem_cons, List.mem_singleton] at hc
  rcases hc with hc | hc
  · exact StoreOp.noConfusion hc
  · injection hc with h1
    exact hne h1.symm

/-- Witness for `recordSuccess_completes_preflight_id` with distinct
caller and reviewer ids. -/
theorem recordSuccess_completes_preflight_id_witness :
    recordSuccess (preflight ⟨none⟩ (some "caller") true).1 "reviewer"
        ⟨"reviewer", "code", "approve", "ok", "[]"⟩ =
      [StoreOp.save ⟨"reviewer", "code", "approve", "ok", "[]"⟩,
        StoreOp.markCompleted "caller"] ∧
    StoreOp.markCompleted "reviewer" ∉
      recordSuccess (preflight ⟨none⟩ (some "caller") true).1 "reviewer"
        ⟨"reviewer", "code", "approve", "ok", "[]"⟩ :=
  recordSuccess_completes_preflight_id ⟨none⟩ "caller" "reviewer"
    ⟨"reviewer", "code", "approve", "ok", "[]"⟩ (by decide)

/-! ## Session store (sessions.ts: activateSession) -/

/-- The persisted session status. -/
inductive SessionStatus : Type where
  | in_progress
  | completed
  | failed
deriving DecidableEq, Repr

/-- A row of the `sessions` table (timestamps as abstract instants). -/
structure SessionRow : Type where
  status : SessionStatus
  created_at : Nat
  completed_at : Option Nat
deriving DecidableEq, Repr

/-- The `SessionInfo` shape returned by the store operations. -/
structure SessionInfo : Type where
  session_id : String
  status : SessionStatus
  created_at : Nat
  completed_at : Option Nat
deriving DecidableEq, Repr

/-- The table mutation of `activateSession`'s upsert
(`INSERT ... VALUES (?, 'in_progress', NULL) ON CONFLICT(session_id) DO
UPDATE SET status = 'in_progress', completed_at = NULL`): an existing row
keeps its `created_at` and only `status`/`completed_at` are overwritten; a
fresh row takes `created_at` from the column default `datetime('now')`
(`now`). -/
def activateSessionTable (now : Nat) (tbl : List (String × SessionRow))
    (sessionId : String) : List (String × SessionRow) :=
  match lookupA sessionId tbl with
  | some row =>
    setAssoc sessionId
      { row with status := .in_progress, completed_at := none } tbl
  | none =>
    setAssoc sessionId
      { status := .in_progress, created_at := now, completed_at := none } tbl

/-- The `SELECT session_id, status, created_at, completed_at` read-back
(after the upsert the row always exists; the `none` arm is unreachable
and mirrors the inserted defaults). -/
def selectSession (sessionId : String) (now : Nat)
    (tbl : List (String × SessionRow)) : SessionInfo :=
  match lookupA sessionId tbl with
  | some row =>
    { session_id := sessionId, status := row.status,
      created_at := row.created_at, completed_at := row.completed_at }
  | none =>
    { session_id := sessionId, status := .in_progress, created_at := now,
      completed_at := none }

/-- Model of `activateSession`: upsert then read back the row. -/
def activateSession (now : Nat) (tbl : List (String × SessionRow))
    (sessionId : String) : SessionInfo × List (String × SessionRow) :=
  (selectSession sessionId now (activateSessionTable now tbl sessionId),
    activateSessionTable now tbl sessionId)

/-- Claim C8: `activateSession` on an id whose stored row is `completed`
(or `failed`) resets that row to `in_progress` with `completed_at = NULL`
while preserving its `created_at`, and returns the reset row. -/
theorem activateSession_resets (now : Nat) (tbl : List (String × SessionRow))
    (id : String) (row : SessionRow) (hrow : lookupA id tbl = some row)
    (_hstat : row.status = SessionStatus.completed ∨
      row.status = SessionStatus.failed) :
    lookupA id (activateSession now tbl id).2 =
      some
        { status := SessionStatus.in_progress,
          created_at := row.created_at, completed_at := none } ∧
    (activateSession now tbl id).1 =
      { session_id := id, status := SessionStatus.in_progress,
        created_at := row.created_at, completed_at := none } := by
  have htbl : activateSessionTable now tbl id =
      setAssoc id { row with status := .in_progress, completed_at := none } tbl := by
    unfold activateSessionTable
    rw [hrow]
  have hlook : lookupA id (activateSessionTable now tbl id) =
      some { row with status := .in_progress, completed_at := none } := by
    rw [htbl]
    exact lookupA_setAssoc_self id _ tbl
  constructor
  · show lookupA id (activateSessionTable now tbl id) = _
    rw [hlook]
  · show selectSession id now (activateSessionTable now tbl id) = _
    unfold selectSession
    rw [hlook]

/-- Witness for `activateSession_resets` on a completed row. -/
theorem activateSession_resets_witness :
    lookupA "s" (activateSession 7 [("s", ⟨SessionStatus.completed, 5, some 9⟩)] "s").2 =
      some
        { status := SessionStatus.in_progress, created_at := 5,
          completed_at := none } ∧
    (activateSession 7 [("s", ⟨SessionStatus.completed, 5, some 9⟩)] "s").1 =
      { session_id := "s", status := SessionStatus.in_progress,
        created_at := 5, completed_at := none } :=
  activateSession_resets 7 [("s", ⟨SessionStatus.completed, 5, some 9⟩)] "s"
    ⟨SessionStatus.completed, 5, some 9⟩ (by decide) (Or.inl rfl)
